import Mathlib

/-!
Verification development for `ekya/models/ekya_resnet.py`.

The Python module wraps a torchvision residual network in a class `Resnet`
providing construction from a name string, a parameter-freezing policy,
a train/val loop (`train_model`), an inference loop (`infer`) and
state persistence (`save`/`load`).

Shallow embedding conventions:
 - Tensors, the autograd engine and the optimizer internals are abstracted
   by an environment `Env W O B`: `W` is the model parameter state
   (`state_dict`), `O` the optimizer/scheduler internal state, `B` a batch.
   `forward` takes the train/eval mode flag set by `model.train()` /
   `model.eval()`.  The effect of `loss.backward(); optimizer.step()` is
   `trainStep`; `ReduceLROnPlateau.step(metric)` is `schedStep`.
 - Floats are modelled as rationals; `time.time()` is a logical clock that
   advances by one at each call.
 - Python exceptions are the `Except PyErr` monad.  An exception aborts the
   whole call, so no state escapes from an aborted run (the Python object
   would keep its partially-mutated weights, which is invisible to all
   properties studied here, since they only constrain completed runs).
 - Ghost observation fields (`schedCalls`, `valAccsSeen`, `gradTrace`,
   `schedTrace`, `valAccs`, `epochEndW`, `pdTrace`) record, at the exact
   program points where the corresponding Python statements execute, the
   metric of each scheduler step, each validation epoch accuracy, each
   `set_grad_enabled` argument, the weights at the end of each epoch and
   the per-epoch `profile_data` dictionary.  They do not influence the
   computation.
-/

namespace Ekya

/-- Python runtime errors raised by the modelled code paths. -/
inductive PyErr where
  | keyError : PyErr
  | attributeError : PyErr
  | typeError : PyErr
  | zeroDivisionError : PyErr
  | exception : String → PyErr
deriving DecidableEq

/-- A torch `DataLoader`: the batches it yields and `len(loader.dataset)`. -/
structure Loader (B : Type) where
  batches : List B
  datasetSize : Nat
deriving DecidableEq

/-- Abstraction of the numerical framework underneath the training loop. -/
structure Env (W O B : Type) where
  /-- Embeds `self.model(inputs)` : one row of logits per sample of the batch;
  the `Bool` is the train/eval mode set by `model.train()`/`model.eval()`. -/
  forward : Bool → W → B → List (List ℚ)
  /-- the labels of a batch -/
  labels : B → List Nat
  /-- Embeds `inputs.size(0)` -/
  batchSize : B → Nat
  /-- Embeds `criterion(outputs, labels).item()` (`nn.CrossEntropyLoss`) -/
  crit : List (List ℚ) → List Nat → ℚ
  /-- Embeds `loss.backward(); optimizer.step()` : parameter/optimizer update -/
  trainStep : W → O → B → W × O
  /-- Embeds `scheduler.step(metric)` for `ReduceLROnPlateau` -/
  schedStep : O → ℚ → O

variable {W O B S : Type}

/-- Index of the first maximal entry: `torch.max(outputs, 1)` indices. -/
def argmaxIdx (l : List ℚ) : Nat :=
  (List.range l.length).foldl (fun best i => if l.getD best 0 < l.getD i 0 then i else best) 0

/-- Number of positions where prediction equals label
(`torch.sum(preds == labels.data)`). -/
def countCorrect (preds ls : List Nat) : Nat :=
  (preds.zip ls).countP fun pl => pl.1 == pl.2

/-- Embeds `_, preds = torch.max(outputs, 1)` for a forward pass in the given mode. -/
def predsOf (env : Env W O B) (mode : Bool) (w : W) (b : B) : List Nat :=
  (env.forward mode w b).map argmaxIdx

/-- Running state of the batch loop of one phase (lines 122-147). -/
structure BatchSt (W O : Type) where
  w : W
  o : O
  runningLoss : ℚ
  runningCorrects : Nat
deriving DecidableEq

/-- One iteration of the batch loop (lines 126-147).  `optimizer.zero_grad()`
only clears gradients, which are not part of the modelled state.  The forward
pass runs under `torch.set_grad_enabled(phase == 'train')`; backward and
optimizer step run only in the `'train'` phase. -/
def runBatch (env : Env W O B) (phase : String) (st : BatchSt W O) (b : B) : BatchSt W O :=
  let outputs := env.forward (decide (phase = "train")) st.w b
  let loss := env.crit outputs (env.labels b)
  let preds := outputs.map argmaxIdx
  let next := if phase = "train" then env.trainStep st.w st.o b else (st.w, st.o)
  { w := next.1, o := next.2,
    runningLoss := st.runningLoss + loss * env.batchSize b,
    runningCorrects := st.runningCorrects + countCorrect preds (env.labels b) }

/-- The four per-phase metrics stored in `profile_data[phase]`. -/
structure PhaseStats where
  time : ℚ
  loss : ℚ
  acc : ℚ
  num_samples : ℚ
deriving DecidableEq

/-- Embeds `defaultdict(lambda: defaultdict(lambda: 0))` default entry. -/
def zeroStats : PhaseStats := ⟨0, 0, 0, 0⟩

/-- Read `profile_data[phase]`, defaulting every metric to 0. -/
def lookupStats (pd : List (String × PhaseStats)) (p : String) : PhaseStats :=
  (pd.lookup p).getD zeroStats

/-- Assignment `profile_data[phase][...] = ...` for all four metrics. -/
def pdSet (pd : List (String × PhaseStats)) (p : String) (s : PhaseStats) :
    List (String × PhaseStats) :=
  (p, s) :: pd

/-- State threaded through the phase loop of one epoch (lines 115-172). -/
structure PhSt (W O : Type) where
  w : W
  o : O
  clock : Nat
  bestAcc : ℚ
  bestW : W
  valHist : List ℚ
  pd : List (String × PhaseStats)
  /-- ghost: metric of each `scheduler.step` call this epoch -/
  schedCalls : List ℚ
  /-- ghost: each validation-phase `epoch_acc` this epoch -/
  valAccsSeen : List ℚ
  /-- ghost: the argument of each `torch.set_grad_enabled` call -/
  gradTrace : List Bool
deriving DecidableEq

/-- Successful body of one phase iteration (lines 116-172): batch loop,
`epoch_loss`/`epoch_acc`, scheduler step on the `'train'` phase with
`epoch_loss` as metric (line 158), best-checkpoint update on the `'val'`
phase (lines 163-168; the append and the best update are guarded by the
same condition), and the `profile_data` assignments (lines 169-172).
`start_time`/`end_time` are the two clock ticks of the phase. -/
def phaseResult (env : Env W O B) (st : PhSt W O) (p : String) (l : Loader B) : PhSt W O :=
  let bst := l.batches.foldl (runBatch env p) ⟨st.w, st.o, 0, 0⟩
  let el := bst.runningLoss / (l.datasetSize : ℚ)
  let ea := (bst.runningCorrects : ℚ) / (l.datasetSize : ℚ)
  { w := bst.w,
    o := if p = "train" then env.schedStep bst.o el else bst.o,
    clock := st.clock + 2,
    bestAcc := if p = "val" ∧ st.bestAcc < ea then ea else st.bestAcc,
    bestW := if p = "val" ∧ st.bestAcc < ea then bst.w else st.bestW,
    valHist := if p = "val" ∧ st.bestAcc < ea then st.valHist ++ [ea] else st.valHist,
    pd := pdSet st.pd p ⟨((st.clock + 1 : ℚ)) - (st.clock : ℚ), el, ea, (l.datasetSize : ℚ)⟩,
    schedCalls := if p = "train" then st.schedCalls ++ [el] else st.schedCalls,
    valAccsSeen := if p = "val" then st.valAccsSeen ++ [ea] else st.valAccsSeen,
    gradTrace := st.gradTrace ++ List.replicate l.batches.length (decide (p = "train")) }

/-- One iteration of `for phase in dataloaders.keys()` (lines 115-172).
Iterating a `None` dataloader raises `TypeError`; `epoch_loss` on an empty
dataset raises `ZeroDivisionError` (line 154); with zero batches
`running_corrects` stays a Python `int` and `.double()` raises
`AttributeError` (line 155). -/
def runOnePhase (env : Env W O B) (st : PhSt W O) (kv : String × Option (Loader B)) :
    Except PyErr (PhSt W O) :=
  match kv.2 with
  | none => .error .typeError
  | some loader =>
    if loader.datasetSize = 0 then .error .zeroDivisionError
    else if loader.batches.isEmpty then .error .attributeError
    else .ok (phaseResult env st kv.1 loader)

/-- The phase loop of one epoch, over the entries of the `dataloaders` dict
in insertion order. -/
def runPhases (env : Env W O B) :
    List (String × Option (Loader B)) → PhSt W O → Except PyErr (PhSt W O)
  | [], st => .ok st
  | kv :: rest, st =>
    match runOnePhase env st kv with
    | .error e => .error e
    | .ok st2 => runPhases env rest st2

/-- State threaded through the epoch loop (lines 107-184). -/
structure EpochSt (W O : Type) where
  w : W
  o : O
  clock : Nat
  bestAcc : ℚ
  bestW : W
  valHist : List ℚ
  profile : List (List ℚ)
  subResults : List (Nat × List (Nat × ℚ))
  /-- ghost: metric of every `scheduler.step` call so far -/
  schedTrace : List ℚ
  /-- ghost: every validation-phase `epoch_acc` so far, one per epoch -/
  valAccs : List ℚ
  /-- ghost: the weights at the end of each completed epoch -/
  epochEndW : List W
  /-- ghost: `(epoch_start_time, profile_data)` of each completed epoch -/
  pdTrace : List (ℚ × List (String × PhaseStats))
deriving DecidableEq

/-- The four metrics of one phase in the order of line 175. -/
def statsRow (s : PhaseStats) : List ℚ := [s.time, s.loss, s.acc, s.num_samples]

/-- Embeds `profile_this_epoch` (lines 173-176): the epoch start timestamp followed
by time, loss, acc, num_samples for `'train'`, `'val'`, `'test'` in order. -/
def mkEntry (ts : ℚ) (pd : List (String × PhaseStats)) : List ℚ :=
  ts :: (statsRow (lookupStats pd "train") ++ statsRow (lookupStats pd "val")
    ++ statsRow (lookupStats pd "test"))

/-- Embeds `running_corrects` accumulated over the batches of `infer` (lines 199-208);
the forward pass runs with `torch.set_grad_enabled(False)` and `model.eval()`. -/
def inferFold (env : Env W O B) (w : W) (batches : List B) : Nat :=
  batches.foldl (fun rc b => rc + countCorrect (predsOf env false w b) (env.labels b)) 0

/-- Embeds `Resnet.infer` (lines 194-220): accuracy over `len(dataloader.dataset)`.
With zero batches `running_corrects` stays a Python `int` and
`running_corrects.double()` raises `AttributeError` (line 217).  (A non-empty
loader over a size-0 dataset returns a non-finite float in Python; that corner
is not modelled — rational division by zero yields 0.) -/
def infer (env : Env W O B) (w : W) (loader : Loader B) : Except PyErr ℚ :=
  if loader.batches.isEmpty then .error .attributeError
  else .ok ((inferFold env w loader.batches : ℚ) / (loader.datasetSize : ℚ))

/-- Embeds `for task_id, task_test_loader in subprofile_test_epochs[epoch].items()`
(lines 102-103 and 182-183). -/
def runTasks (env : Env W O B) (w : W) :
    List (Nat × Loader B) → Except PyErr (List (Nat × ℚ))
  | [] => .ok []
  | (tid, l) :: rest =>
    match infer env w l with
    | .error e => .error e
    | .ok a =>
      match runTasks env w rest with
      | .error e => .error e
      | .ok r => .ok ((tid, a) :: r)

/-- Embeds `for epoch in subprofile_test_epochs.keys()` in the inference-only branch
(lines 100-104). -/
def runSubprofile (env : Env W O B) (w : W) :
    List (Nat × List (Nat × Loader B)) → Except PyErr (List (Nat × List (Nat × ℚ)))
  | [] => .ok []
  | (e, tasks) :: rest =>
    match runTasks env w tasks with
    | .error err => .error err
    | .ok rs =>
      match runSubprofile env w rest with
      | .error err => .error err
      | .ok rest2 => .ok ((e, rs) :: rest2)

/-- Fresh per-epoch phase-loop state: `profile_data` is a fresh defaultdict
(line 112); `epoch_start_time` consumes one clock tick (line 108). -/
def mkPh0 (st : EpochSt W O) : PhSt W O :=
  { w := st.w, o := st.o, clock := st.clock + 1, bestAcc := st.bestAcc, bestW := st.bestW,
    valHist := st.valHist, pd := [], schedCalls := [], valAccsSeen := [], gradTrace := [] }

/-- Merge the result of one epoch back into the epoch-loop state: the profile
entry is appended (line 177) and the ghost traces are extended. -/
def epochResult (st : EpochSt W O) (ph : PhSt W O)
    (sub2 : List (Nat × List (Nat × ℚ))) : EpochSt W O :=
  { w := ph.w, o := ph.o, clock := ph.clock, bestAcc := ph.bestAcc, bestW := ph.bestW,
    valHist := ph.valHist,
    profile := st.profile ++ [mkEntry (st.clock : ℚ) ph.pd],
    subResults := sub2,
    schedTrace := st.schedTrace ++ ph.schedCalls,
    valAccs := st.valAccs ++ ph.valAccsSeen,
    epochEndW := st.epochEndW ++ [ph.w],
    pdTrace := st.pdTrace ++ [((st.clock : ℚ), ph.pd)] }

/-- One training epoch (lines 107-184).  After the phases and the profile
append, `epoch in subprofile_test_epochs.keys()` dereferences the argument:
with the default `None` this raises `AttributeError` (line 180). -/
def runEpoch (env : Env W O B) (dls : List (String × Option (Loader B)))
    (subp : Option (List (Nat × List (Nat × Loader B)))) (epoch : Nat)
    (st : EpochSt W O) : Except PyErr (EpochSt W O) :=
  match runPhases env dls (mkPh0 st) with
  | .error e => .error e
  | .ok ph =>
    match subp with
    | none => .error .attributeError
    | some spt =>
      match spt.lookup epoch with
      | none => .ok (epochResult st ph st.subResults)
      | some tasks =>
        match runTasks env ph.w tasks with
        | .error e => .error e
        | .ok rs => .ok (epochResult st ph (st.subResults ++ [(epoch, rs)]))

/-- Embeds `for epoch in range(num_epochs)`: current epoch index and remaining count. -/
def runEpochs (env : Env W O B) (dls : List (String × Option (Loader B)))
    (subp : Option (List (Nat × List (Nat × Loader B)))) :
    Nat → Nat → EpochSt W O → Except PyErr (EpochSt W O)
  | _, 0, st => .ok st
  | e, n + 1, st =>
    match runEpoch env dls subp e st with
    | .error err => .error err
    | .ok st2 => runEpochs env dls subp (e + 1) n st2

/-- What `train_model` returns (line 192), plus the ghost traces. -/
structure TrainResult (W : Type) where
  model : W
  valHist : List ℚ
  bestAcc : ℚ
  profile : List (List ℚ)
  subResults : List (Nat × List (Nat × ℚ))
  schedTrace : List ℚ
  valAccs : List ℚ
  epochEndW : List W
  pdTrace : List (ℚ × List (String × PhaseStats))
deriving DecidableEq

/-- State before the epoch loop (lines 82-93): `best_model_wts` is a deep
copy of the initial weights, `best_acc` is `0.0`, all accumulators are
empty; `since = time.time()` has consumed one clock tick. -/
def initSt (w0 : W) (o0 : O) (clock0 : Nat) : EpochSt W O :=
  { w := w0, o := o0, clock := clock0 + 1, bestAcc := 0, bestW := w0, valHist := [],
    profile := [], subResults := [], schedTrace := [], valAccs := [],
    epochEndW := [], pdTrace := [] }

/-- Embeds `Resnet.train_model` (lines 72-192).  `dataloaders` is the dict as an
association list in insertion order; a missing `'train'` key raises
`KeyError` at line 95.  `best_model_wts` starts as a deep copy of the
initial weights and `best_acc` as `0.0` (lines 89-90).  If
`dataloaders['train']` is `None`, only the subprofile inference loop runs
(lines 95-104); otherwise the epoch loop runs (lines 106-184).  At the end
the best weights are loaded back (line 191). -/
def train_model (env : Env W O B) (dls : List (String × Option (Loader B)))
    (subp : Option (List (Nat × List (Nat × Loader B))))
    (num_epochs : Nat) (w0 : W) (o0 : O) (clock0 : Nat) :
    Except PyErr (TrainResult W) :=
  match dls.lookup "train" with
  | none => .error .keyError
  | some trainLoader =>
    let st0 : EpochSt W O := initSt w0 o0 clock0
    let afterBranches : Except PyErr (EpochSt W O) :=
      match trainLoader with
      | none =>
        match subp with
        | none => .error .attributeError
        | some spt =>
          match runSubprofile env st0.w spt with
          | .error e => .error e
          | .ok subres => .ok { st0 with subResults := subres }
      | some _ => runEpochs env dls subp 0 num_epochs st0
    match afterBranches with
    | .error e => .error e
    | .ok stF =>
      .ok { model := stF.bestW,
            valHist := stF.valHist, bestAcc := stF.bestAcc, profile := stF.profile,
            subResults := stF.subResults, schedTrace := stF.schedTrace,
            valAccs := stF.valAccs, epochEndW := stF.epochEndW, pdTrace := stF.pdTrace }

/-- A named model parameter with its `requires_grad` flag. -/
structure PParam where
  name : String
  requiresGrad : Bool
deriving DecidableEq

/-- The parameters of `self.model`: the pretrained backbone (everything but
`fc`), the current `fc` layer, and the output `Linear` appended by
`initialize_last_layer` (empty before it runs). -/
structure MState where
  backbone : List PParam
  fc : List PParam
  extra : List PParam
deriving DecidableEq

/-- Embeds `self.model.parameters()` / `named_parameters()`, in module order. -/
def allParams (m : MState) : List PParam := m.backbone ++ m.fc ++ m.extra

/-- Embeds `param.requires_grad = False` for every parameter (lines 54-55). -/
def freezeAll (m : MState) : MState :=
  { backbone := m.backbone.map fun p => { p with requiresGrad := false },
    fc := m.fc.map fun p => { p with requiresGrad := false },
    extra := m.extra.map fun p => { p with requiresGrad := false } }

/-- Embeds `Resnet.set_parameter_requires_grad` (lines 52-55). -/
def set_parameter_requires_grad (lastLayerOnly : Bool) (m : MState) : MState :=
  if lastLayerOnly then freezeAll m else m

/-- Parameters of the fresh `nn.Linear(self.model.fc.in_features, num_hidden)`:
`requires_grad` defaults to `True`. -/
def newFcParams : List PParam := [⟨"fc.weight", true⟩, ⟨"fc.bias", true⟩]

/-- Parameters of the fresh `nn.Linear(num_hidden, num_classes)` appended by
the `nn.Sequential` wrapper: `requires_grad` defaults to `True`. -/
def newOutParams : List PParam := [⟨"1.weight", true⟩, ⟨"1.bias", true⟩]

/-- Embeds `Resnet.initialize_last_layer` (lines 44-50): replaces `self.model.fc`
by a fresh `Linear` and appends a fresh output `Linear`. -/
def init_last_layer (m : MState) : MState :=
  { backbone := m.backbone, fc := newFcParams, extra := newOutParams }

/-- Embeds `Resnet.set_params_to_update` (lines 57-70). -/
def set_params_to_update (lastLayerOnly : Bool) (m : MState) : List PParam :=
  if lastLayerOnly then (allParams m).filter (fun p => p.requiresGrad) else allParams m

/-- The constructor steps relevant to the freezing policy, in the order of
`__init__` (lines 24-27): freeze, then replace the head, then collect
`params_to_update`. -/
def construct (lastLayerOnly : Bool) (backbone0 fc0 : List PParam) :
    MState × List PParam :=
  let m0 : MState := { backbone := backbone0, fc := fc0, extra := [] }
  let m1 := set_parameter_requires_grad lastLayerOnly m0
  let m2 := init_last_layer m1
  (m2, set_params_to_update lastLayerOnly m2)

/-- The torchvision constructors the name string can map to. -/
inductive ModelCtor where
  | resnet18 | resnet50 | resnet101 | resnet152
deriving DecidableEq

/-- Embeds `Resnet.get_model_from_str` (lines 32-42). -/
def get_model_from_str (s : String) : Except PyErr ModelCtor :=
  if s = "resnet18" then .ok .resnet18
  else if s = "resnet50" then .ok .resnet50
  else if s = "resnet101" then .ok .resnet101
  else if s = "resnet152" then .ok .resnet152
  else .error (.exception ("Model " ++ s ++ " not found"))

/-- Embeds `Resnet.save` (lines 222-223): `torch.save(self.model.state_dict(), path)`.
The filesystem is a map from paths to serialized state dicts; serialization
is modelled as faithful. -/
def save (fs : List (String × S)) (path : String) (sd : S) : List (String × S) :=
  (path, sd) :: fs

/-- Embeds `Resnet.load` (lines 225-226): the state dict read back from `path`,
which `load_state_dict` installs into the model of the same architecture. -/
def load (fs : List (String × S)) (path : String) : Option S :=
  fs.lookup path

/-- Specification helper: the strictly record-breaking values of a list,
starting from a given best. -/
def strictRecords (best : ℚ) : List ℚ → List ℚ
  | [] => []
  | a :: rest => if best < a then a :: strictRecords a rest else strictRecords best rest

/-- Well-formedness of one dataloader dict entry: present, non-empty dataset,
at least one batch. -/
def wfKV (kv : String × Option (Loader B)) : Bool :=
  match kv.2 with
  | none => false
  | some l => (!(l.datasetSize == 0)) && (!(l.batches.isEmpty))

/-- Concrete environment for evaluation: a batch is a single rational; the
model outputs it as the unique logit, its label is 0, and cross-entropy is
abstracted by reading that logit back. -/
def cenv : Env Unit Unit ℚ :=
  { forward := fun _ _ b => [[b]],
    labels := fun _ => [0],
    batchSize := fun _ => 1,
    crit := fun outs _ => (outs.getD 0 []).getD 0 0,
    trainStep := fun _ _ _ => ((), ()),
    schedStep := fun _ _ => () }

/-- A concrete train loader: one batch, whose abstract loss is 2. -/
def ltr : Loader ℚ := ⟨[2], 1⟩

/-- A concrete validation loader: one batch, whose abstract loss is 3. -/
def lvl : Loader ℚ := ⟨[3], 1⟩

/-- A concrete dataloaders dict with a train and a val phase. -/
def cdls1 : List (String × Option (Loader ℚ)) := [("train", some ltr), ("val", some lvl)]

/-- A concrete one-epoch run of `train_model`. -/
def cRun1 : Except PyErr (TrainResult Unit) := train_model cenv cdls1 (some []) 1 () () 0

/-- Placeholder result used as `getD` default when extracting from `cRun1`. -/
def trDefault : TrainResult Unit := ⟨(), [], 0, [], [], [], [], [], []⟩

/-- The result of the concrete one-epoch run. -/
def cR1 : TrainResult Unit := cRun1.toOption.getD trDefault

/-- A concrete phase-loop state for evaluating single phases. -/
def cPh0 : PhSt Unit Unit := ⟨(), (), 0, 0, (), [], [], [], [], []⟩

/-- The state after running the concrete `'val'` phase from `cPh0`. -/
def cPh1 : PhSt Unit Unit := (runOnePhase cenv cPh0 ("val", some lvl)).toOption.getD cPh0

/-- A concrete two-batch loader for `infer`. -/
def linf : Loader ℚ := ⟨[2, 3], 2⟩

/-- A concrete pretrained backbone parameter list. -/
def cB0 : List PParam := [⟨"conv1.weight", true⟩, ⟨"layer1.0.conv1.weight", true⟩]

/-- A concrete pretrained `fc` parameter list. -/
def cF0 : List PParam := [⟨"fc.weight", true⟩, ⟨"fc.bias", true⟩]

end Ekya

namespace Ekya

variable {W O B S : Type}

/-! ## Basic inversion and frame lemmas -/

theorem runOnePhase_some (env : Env W O B) (st : PhSt W O) (p : String) (l : Loader B)
    (hz : l.datasetSize ≠ 0) (hb : l.batches ≠ []) :
    runOnePhase env st (p, some l) = .ok (phaseResult env st p l) := by
  simp [runOnePhase, hz, List.isEmpty_iff, hb]

theorem runOnePhase_ok_inv {env : Env W O B} {st st' : PhSt W O} {p : String}
    {ol : Option (Loader B)} (h : runOnePhase env st (p, ol) = .ok st') :
    ∃ l, ol = some l ∧ l.datasetSize ≠ 0 ∧ l.batches ≠ [] ∧ st' = phaseResult env st p l := by
  cases ol with
  | none => simp [runOnePhase] at h
  | some l =>
    simp only [runOnePhase] at h
    split at h
    · exact absurd h (by simp)
    · split at h
      · exact absurd h (by simp)
      · rename_i h1 h2
        refine ⟨l, rfl, h1, ?_, ?_⟩
        · intro hnil
          exact h2 (by simp [hnil])
        · injection h with h
          exact h.symm

theorem runBatch_w_o (env : Env W O B) {p : String} (hp : p ≠ "train")
    (st : BatchSt W O) (b : B) :
    (runBatch env p st b).w = st.w ∧ (runBatch env p st b).o = st.o := by
  simp [runBatch, hp]

theorem foldBatch_w_o (env : Env W O B) {p : String} (hp : p ≠ "train") :
    ∀ (bs : List B) (st : BatchSt W O),
      (bs.foldl (runBatch env p) st).w = st.w ∧ (bs.foldl (runBatch env p) st).o = st.o := by
  intro bs
  induction bs with
  | nil => intro st; exact ⟨rfl, rfl⟩
  | cons b bs ih =>
    intro st
    rw [List.foldl_cons]
    obtain ⟨hw, ho⟩ := runBatch_w_o env hp st b
    obtain ⟨hw2, ho2⟩ := ih (runBatch env p st b)
    exact ⟨hw2.trans hw, ho2.trans ho⟩

/-! ## Projections of `phaseResult` -/

theorem phaseResult_w_notTrain (env : Env W O B) (st : PhSt W O) {p : String} (l : Loader B)
    (hp : p ≠ "train") : (phaseResult env st p l).w = st.w := by
  simp only [phaseResult]
  exact (foldBatch_w_o env hp l.batches ⟨st.w, st.o, 0, 0⟩).1

theorem phaseResult_o_notTrain (env : Env W O B) (st : PhSt W O) {p : String} (l : Loader B)
    (hp : p ≠ "train") : (phaseResult env st p l).o = st.o := by
  simp only [phaseResult, hp, if_false, if_neg hp]
  exact (foldBatch_w_o env hp l.batches ⟨st.w, st.o, 0, 0⟩).2

theorem phaseResult_gradTrace (env : Env W O B) (st : PhSt W O) (p : String) (l : Loader B) :
    (phaseResult env st p l).gradTrace =
      st.gradTrace ++ List.replicate l.batches.length (decide (p = "train")) := rfl

theorem phaseResult_pd (env : Env W O B) (st : PhSt W O) (p : String) (l : Loader B) :
    ∃ s : PhaseStats, (phaseResult env st p l).pd = (p, s) :: st.pd := ⟨_, rfl⟩

theorem phaseResult_schedCalls_notTrain (env : Env W O B) (st : PhSt W O) {p : String}
    (l : Loader B) (hp : p ≠ "train") :
    (phaseResult env st p l).schedCalls = st.schedCalls := by
  simp [phaseResult, hp]

theorem phaseResult_train_sched (env : Env W O B) (st : PhSt W O) (l : Loader B) :
    ∃ s : PhaseStats, (phaseResult env st "train" l).pd = ("train", s) :: st.pd ∧
      (phaseResult env st "train" l).schedCalls = st.schedCalls ++ [s.loss] := by
  refine ⟨⟨((st.clock + 1 : ℚ)) - (st.clock : ℚ),
    (l.batches.foldl (runBatch env "train") ⟨st.w, st.o, 0, 0⟩).runningLoss / (l.datasetSize : ℚ),
    ((l.batches.foldl (runBatch env "train") ⟨st.w, st.o, 0, 0⟩).runningCorrects : ℚ) /
      (l.datasetSize : ℚ), (l.datasetSize : ℚ)⟩, ?_, ?_⟩ <;>
    simp [phaseResult, pdSet]

theorem phaseResult_notVal (env : Env W O B) (st : PhSt W O) {p : String} (l : Loader B)
    (hp : p ≠ "val") :
    (phaseResult env st p l).bestAcc = st.bestAcc ∧
    (phaseResult env st p l).bestW = st.bestW ∧
    (phaseResult env st p l).valHist = st.valHist ∧
    (phaseResult env st p l).valAccsSeen = st.valAccsSeen := by
  simp [phaseResult, hp]

theorem phaseResult_val (env : Env W O B) (st : PhSt W O) (l : Loader B)
    (hz : l.datasetSize ≠ 0) :
    ∃ a : ℚ, 0 ≤ a ∧ (phaseResult env st "val" l).valAccsSeen = st.valAccsSeen ++ [a] ∧
      ((st.bestAcc < a ∧ (phaseResult env st "val" l).bestAcc = a ∧
        (phaseResult env st "val" l).bestW = (phaseResult env st "val" l).w ∧
        (phaseResult env st "val" l).valHist = st.valHist ++ [a]) ∨
       (¬ st.bestAcc < a ∧ (phaseResult env st "val" l).bestAcc = st.bestAcc ∧
        (phaseResult env st "val" l).bestW = st.bestW ∧
        (phaseResult env st "val" l).valHist = st.valHist)) := by
  refine ⟨((l.batches.foldl (runBatch env "val") ⟨st.w, st.o, 0, 0⟩).runningCorrects : ℚ) /
    (l.datasetSize : ℚ), ?_, ?_, ?_⟩
  · positivity
  · simp [phaseResult]
  · by_cases hlt : st.bestAcc <
      ((l.batches.foldl (runBatch env "val") ⟨st.w, st.o, 0, 0⟩).runningCorrects : ℚ) /
        (l.datasetSize : ℚ)
    · exact Or.inl ⟨hlt, by simp [phaseResult, hlt], by simp [phaseResult, hlt],
        by simp [phaseResult, hlt]⟩
    · exact Or.inr ⟨hlt, by simp [phaseResult, hlt], by simp [phaseResult, hlt],
        by simp [phaseResult, hlt]⟩

/-! ## The phase loop -/

theorem runPhases_append (env : Env W O B) (xs ys : List (String × Option (Loader B)))
    (st : PhSt W O) (st' : PhSt W O) :
    runPhases env (xs ++ ys) st = .ok st' ↔
      ∃ stm, runPhases env xs st = .ok stm ∧ runPhases env ys stm = .ok st' := by
  induction xs generalizing st with
  | nil =>
    simp [runPhases]
  | cons kv rest ih =>
    rw [List.cons_append]
    constructor
    · intro h
      simp only [runPhases] at h ⊢
      cases hkv : runOnePhase env st kv with
      | error e => rw [hkv] at h; exact absurd h (by simp)
      | ok st2 =>
        rw [hkv] at h
        obtain ⟨stm, h1, h2⟩ := (ih st2).mp h
        exact ⟨stm, h1, h2⟩
    · rintro ⟨stm, h1, h2⟩
      simp only [runPhases] at h1 ⊢
      cases hkv : runOnePhase env st kv with
      | error e => rw [hkv] at h1; exact absurd h1 (by simp)
      | ok st2 =>
        rw [hkv] at h1
        exact (ih st2).mpr ⟨stm, h1, h2⟩

theorem lookup_cons_ne {β : Type} (q p : String) (s : β) (pd : List (String × β))
    (hq : q ≠ p) : List.lookup q ((p, s) :: pd) = List.lookup q pd := by
  rw [List.lookup_cons]
  have : (q == p) = false := beq_eq_false_iff_ne.mpr hq
  rw [this]

/-- A phase loop over phases not containing `'train'` does not touch the
weights, the optimizer state, the scheduler-call trace, or the recorded train
stats. -/
theorem runPhases_no_train (env : Env W O B) :
    ∀ (kvs : List (String × Option (Loader B))) (st st' : PhSt W O),
      "train" ∉ kvs.map Prod.fst → runPhases env kvs st = .ok st' →
      st'.w = st.w ∧ st'.o = st.o ∧ st'.schedCalls = st.schedCalls ∧
        st'.pd.lookup "train" = st.pd.lookup "train" := by
  intro kvs
  induction kvs with
  | nil => intro st st' _ h; cases h; exact ⟨rfl, rfl, rfl, rfl⟩
  | cons kv rest ih =>
    intro st st' hmem h
    simp only [List.map_cons, List.mem_cons, not_or] at hmem
    obtain ⟨hp, hrest⟩ := hmem
    simp only [runPhases] at h
    cases hkv : runOnePhase env st kv with
    | error e => rw [hkv] at h; exact absurd h (by simp)
    | ok st2 =>
      rw [hkv] at h
      obtain ⟨kv1, kv2⟩ := kv
      obtain ⟨l, rfl, hz, hb, rfl⟩ := runOnePhase_ok_inv hkv
      have hp' : kv1 ≠ "train" := fun hc => hp hc.symm
      obtain ⟨s, hpd⟩ := phaseResult_pd env st kv1 l
      obtain ⟨ihw, iho, ihs, ihpd⟩ := ih _ _ hrest h
      refine ⟨?_, ?_, ?_, ?_⟩
      · rw [ihw, phaseResult_w_notTrain env st l hp']
      · rw [iho, phaseResult_o_notTrain env st l hp']
      · rw [ihs, phaseResult_schedCalls_notTrain env st l hp']
      · rw [ihpd, hpd, lookup_cons_ne _ _ _ _ hp]

/-- A phase loop over phases not containing `'val'` does not touch the
best-checkpoint state or the validation history. -/
theorem runPhases_no_val (env : Env W O B) :
    ∀ (kvs : List (String × Option (Loader B))) (st st' : PhSt W O),
      "val" ∉ kvs.map Prod.fst → runPhases env kvs st = .ok st' →
      st'.bestAcc = st.bestAcc ∧ st'.bestW = st.bestW ∧ st'.valHist = st.valHist ∧
        st'.valAccsSeen = st.valAccsSeen := by
  intro kvs
  induction kvs with
  | nil => intro st st' _ h; cases h; exact ⟨rfl, rfl, rfl, rfl⟩
  | cons kv rest ih =>
    intro st st' hmem h
    simp only [List.map_cons, List.mem_cons, not_or] at hmem
    obtain ⟨hp, hrest⟩ := hmem
    simp only [runPhases] at h
    cases hkv : runOnePhase env st kv with
    | error e => rw [hkv] at h; exact absurd h (by simp)
    | ok st2 =>
      rw [hkv] at h
      obtain ⟨kv1, kv2⟩ := kv
      obtain ⟨l, rfl, hz, hb, rfl⟩ := runOnePhase_ok_inv hkv
      have hp' : kv1 ≠ "val" := fun hc => hp hc.symm
      obtain ⟨h1, h2, h3, h4⟩ := phaseResult_notVal env st l hp'
      obtain ⟨ih1, ih2, ih3, ih4⟩ := ih _ _ hrest h
      exact ⟨ih1.trans h1, ih2.trans h2, ih3.trans h3, ih4.trans h4⟩

/-- The phase loop only writes `profile_data` entries for phases of the
dataloaders dict. -/
theorem runPhases_pd_frame (env : Env W O B) :
    ∀ (kvs : List (String × Option (Loader B))) (st st' : PhSt W O) (q : String),
      q ∉ kvs.map Prod.fst → runPhases env kvs st = .ok st' →
      st'.pd.lookup q = st.pd.lookup q := by
  intro kvs
  induction kvs with
  | nil => intro st st' q _ h; cases h; rfl
  | cons kv rest ih =>
    intro st st' q hmem h
    simp only [List.map_cons, List.mem_cons, not_or] at hmem
    obtain ⟨hp, hrest⟩ := hmem
    simp only [runPhases] at h
    cases hkv : runOnePhase env st kv with
    | error e => rw [hkv] at h; exact absurd h (by simp)
    | ok st2 =>
      rw [hkv] at h
      obtain ⟨kv1, kv2⟩ := kv
      obtain ⟨l, rfl, hz, hb, rfl⟩ := runOnePhase_ok_inv hkv
      obtain ⟨s, hpd⟩ := phaseResult_pd env st kv1 l
      rw [ih _ _ q hrest h, hpd, lookup_cons_ne _ _ _ _ hp]

/-- Well-formed dataloaders make the phase loop succeed. -/
theorem runPhases_ok_of_wf (env : Env W O B) :
    ∀ (kvs : List (String × Option (Loader B))) (st : PhSt W O),
      (∀ kv ∈ kvs, wfKV kv = true) → ∃ st', runPhases env kvs st = .ok st' := by
  intro kvs
  induction kvs with
  | nil => intro st _; exact ⟨st, rfl⟩
  | cons kv rest ih =>
    intro st hwf
    obtain ⟨kv1, kv2⟩ := kv
    have hkv := hwf _ (List.mem_cons_self _ _)
    cases kv2 with
    | none => simp [wfKV] at hkv
    | some l =>
      simp only [wfKV, Bool.and_eq_true, Bool.not_eq_true', beq_eq_false_iff_ne,
        List.isEmpty_eq_false] at hkv
      obtain ⟨hz, hb⟩ := hkv
      obtain ⟨st2, h2⟩ := ih (phaseResult env st kv1 l) fun kv hm => hwf kv (List.mem_cons_of_mem _ hm)
      exact ⟨st2, by rw [runPhases]; rw [runOnePhase_some env st kv1 l hz hb]; exact h2⟩

theorem nodup_split_not_mem {α : Type} {pre post : List α} {a : α}
    (hnd : (pre ++ a :: post).Nodup) : a ∉ pre ∧ a ∉ post := by
  rw [List.nodup_append] at hnd
  obtain ⟨h1, h2, h3⟩ := hnd
  rw [List.nodup_cons] at h2
  exact ⟨fun hm => h3 hm (List.mem_cons_self _ _), h2.1⟩

/-- In an epoch over a dict with a (unique) `'train'` key, the scheduler is
stepped exactly once, with the loss recorded for the train phase as metric
(lines 157-158 and 170). -/
theorem runPhases_sched (env : Env W O B) {kvs : List (String × Option (Loader B))}
    (st st' : PhSt W O) (hnd : (kvs.map Prod.fst).Nodup)
    (hmem : "train" ∈ kvs.map Prod.fst) (h : runPhases env kvs st = .ok st') :
    ∃ s : PhaseStats, st'.schedCalls = st.schedCalls ++ [s.loss] ∧
      st'.pd.lookup "train" = some s := by
  obtain ⟨kv, hkvm, hfst⟩ := List.mem_map.mp hmem
  obtain ⟨kv1, kv2⟩ := kv
  simp only at hfst
  subst hfst
  obtain ⟨pre, post, rfl⟩ := List.append_of_mem hkvm
  have hnd' : (pre.map Prod.fst ++ "train" :: post.map Prod.fst).Nodup := by
    simpa using hnd
  obtain ⟨hpre, hpost⟩ := nodup_split_not_mem hnd'
  obtain ⟨stm, hpreRun, hrest⟩ := (runPhases_append env pre _ st st').mp h
  simp only [runPhases] at hrest
  cases hone : runOnePhase env stm ("train", kv2) with
  | error e => rw [hone] at hrest; exact absurd hrest (by simp)
  | ok st2 =>
    rw [hone] at hrest
    obtain ⟨l, rfl, hz, hb, rfl⟩ := runOnePhase_ok_inv hone
    obtain ⟨s, hspd, hssched⟩ := phaseResult_train_sched env stm l
    obtain ⟨_, _, hpostSched, hpostPd⟩ := runPhases_no_train env post _ _ hpost hrest
    obtain ⟨_, _, hpreSched, _⟩ := runPhases_no_train env pre _ _ hpre hpreRun
    refine ⟨s, ?_, ?_⟩
    · rw [hpostSched, hssched, hpreSched]
    · rw [hpostPd, hspd, List.lookup_cons]
      simp

/-- In an epoch over a dict with a (unique) `'val'` key that is not followed
by the `'train'` key, the validation phase contributes exactly one epoch
accuracy, and the best-checkpoint state is updated by the record rule of
lines 163-168, the recorded weights being the weights at the end of the
phase loop. -/
theorem runPhases_val_mem (env : Env W O B) {kvs : List (String × Option (Loader B))}
    (st st' : PhSt W O) (hnd : (kvs.map Prod.fst).Nodup)
    (Hord : ∀ pre lv post, kvs = pre ++ ("val", lv) :: post → "train" ∉ post.map Prod.fst)
    (hmem : "val" ∈ kvs.map Prod.fst) (h : runPhases env kvs st = .ok st') :
    ∃ a : ℚ, 0 ≤ a ∧ st'.valAccsSeen = st.valAccsSeen ++ [a] ∧
      ((st.bestAcc < a ∧ st'.bestAcc = a ∧ st'.bestW = st'.w ∧
        st'.valHist = st.valHist ++ [a]) ∨
       (¬ st.bestAcc < a ∧ st'.bestAcc = st.bestAcc ∧ st'.bestW = st.bestW ∧
         st'.valHist = st.valHist)) := by
  obtain ⟨kv, hkvm, hfst⟩ := List.mem_map.mp hmem
  obtain ⟨kv1, kv2⟩ := kv
  simp only at hfst
  subst hfst
  obtain ⟨pre, post, rfl⟩ := List.append_of_mem hkvm
  have hnd' : (pre.map Prod.fst ++ "val" :: post.map Prod.fst).Nodup := by
    simpa using hnd
  obtain ⟨hpre, hpost⟩ := nodup_split_not_mem hnd'
  have hposttr : "train" ∉ post.map Prod.fst := Hord pre kv2 post rfl
  obtain ⟨stm, hpreRun, hrest⟩ := (runPhases_append env pre _ st st').mp h
  simp only [runPhases] at hrest
  cases hone : runOnePhase env stm ("val", kv2) with
  | error e => rw [hone] at hrest; exact absurd hrest (by simp)
  | ok st2 =>
    rw [hone] at hrest
    obtain ⟨l, rfl, hz, hb, rfl⟩ := runOnePhase_ok_inv hone
    obtain ⟨a, ha0, haccs, hupd⟩ := phaseResult_val env stm l hz
    obtain ⟨hpreB, hpreBW, hpreH, hpreA⟩ := runPhases_no_val env pre _ _ hpre hpreRun
    obtain ⟨hpostB, hpostBW, hpostH, hpostA⟩ := runPhases_no_val env post _ _ hpost hrest
    obtain ⟨hpostW, _, _, _⟩ := runPhases_no_train env post _ _ hposttr hrest
    refine ⟨a, ha0, ?_, ?_⟩
    · rw [hpostA, haccs, hpreA]
    · rw [hpreB] at hupd
      rcases hupd with ⟨hlt, hba, hbw, hvh⟩ | ⟨hlt, hba, hbw, hvh⟩
      · exact Or.inl ⟨hlt, hpostB.trans hba, by rw [hpostBW, hbw, ← hpostW],
          by rw [hpostH, hvh, hpreH]⟩
      · exact Or.inr ⟨hlt, hpostB.trans hba, hpostBW.trans (hbw.trans hpreBW),
          hpostH.trans (hvh.trans hpreH)⟩

/-! ## The epoch loop -/

theorem runEpoch_ok_inv {env : Env W O B} {dls : List (String × Option (Loader B))}
    {subp : Option (List (Nat × List (Nat × Loader B)))} {e : Nat} {st st' : EpochSt W O}
    (h : runEpoch env dls subp e st = .ok st') :
    ∃ ph spt sub2, runPhases env dls (mkPh0 st) = .ok ph ∧ subp = some spt ∧
      st' = epochResult st ph sub2 := by
  simp only [runEpoch] at h
  split at h
  · exact absurd h (by simp)
  · rename_i ph hph
    split at h
    · exact absurd h (by simp)
    · rename_i spt
      split at h
      · injection h with h
        exact ⟨ph, spt, st.subResults, hph, rfl, h.symm⟩
      · split at h
        · exact absurd h (by simp)
        · rename_i rs htk
          injection h with h
          exact ⟨ph, spt, _, hph, rfl, h.symm⟩

theorem runEpochs_succ_inv {env : Env W O B} {dls : List (String × Option (Loader B))}
    {subp : Option (List (Nat × List (Nat × Loader B)))} {e n : Nat} {st st' : EpochSt W O}
    (h : runEpochs env dls subp e (n + 1) st = .ok st') :
    ∃ st2, runEpoch env dls subp e st = .ok st2 ∧
      runEpochs env dls subp (e + 1) n st2 = .ok st' := by
  simp only [runEpochs] at h
  cases hep : runEpoch env dls subp e st with
  | error e2 => rw [hep] at h; exact absurd h (by simp)
  | ok st2 => rw [hep] at h; exact ⟨st2, rfl, h⟩

/-! ## `train_model` inversion -/

theorem train_model_train_inv {env : Env W O B} {dls : List (String × Option (Loader B))}
    {subp : Option (List (Nat × List (Nat × Loader B)))} {n : Nat} {w0 : W} {o0 : O}
    {c0 : Nat} {r : TrainResult W} {lt : Loader B}
    (htr : dls.lookup "train" = some (some lt))
    (h : train_model env dls subp n w0 o0 c0 = .ok r) :
    ∃ stF, runEpochs env dls subp 0 n (initSt w0 o0 c0) = .ok stF ∧
      r.model = stF.bestW ∧ r.valHist = stF.valHist ∧ r.bestAcc = stF.bestAcc ∧
      r.profile = stF.profile ∧ r.schedTrace = stF.schedTrace ∧ r.valAccs = stF.valAccs ∧
      r.epochEndW = stF.epochEndW ∧ r.pdTrace = stF.pdTrace := by
  simp only [train_model, htr] at h
  split at h
  · exact absurd h (by simp)
  · rename_i stF hrun
    injection h with h
    exact ⟨stF, hrun, by rw [← h], by rw [← h], by rw [← h], by rw [← h], by rw [← h],
      by rw [← h], by rw [← h], by rw [← h]⟩

theorem runEpoch_subp_none (env : Env W O B) (dls : List (String × Option (Loader B)))
    (e : Nat) (st : EpochSt W O) (hwf : ∀ kv ∈ dls, wfKV kv = true) :
    runEpoch env dls none e st = .error .attributeError := by
  obtain ⟨ph, hph⟩ := runPhases_ok_of_wf env dls (mkPh0 st) hwf
  simp [runEpoch, hph]

/-! ## List and max helpers -/

theorem le_foldl_max (b : ℚ) : ∀ l : List ℚ, b ≤ l.foldl max b := by
  intro l
  induction l generalizing b with
  | nil => exact le_refl b
  | cons x xs ih => exact le_trans (le_max_left b x) (ih (max b x))

theorem mem_le_foldl_max {a : ℚ} : ∀ {l : List ℚ} (b : ℚ), a ∈ l → a ≤ l.foldl max b := by
  intro l
  induction l with
  | nil => intro b h; cases h
  | cons x xs ih =>
    intro b h
    rw [List.foldl_cons]
    rcases List.mem_cons.mp h with rfl | hm
    · exact le_trans (le_max_right b a) (le_foldl_max (max b a) xs)
    · exact ih (max b x) hm

theorem foldl_max_mem_or (b : ℚ) : ∀ l : List ℚ, l.foldl max b = b ∨ l.foldl max b ∈ l := by
  intro l
  induction l generalizing b with
  | nil => exact Or.inl rfl
  | cons x xs ih =>
    rw [List.foldl_cons]
    rcases ih (max b x) with h | h
    · rcases max_choice b x with hc | hc
      · exact Or.inl (h.trans hc)
      · refine Or.inr ?_
        rw [h, hc]
        exact List.mem_cons_self x xs
    · exact Or.inr (List.mem_cons_of_mem x h)

theorem getD_mem {α : Type} : ∀ (l : List α) (i : Nat) (d : α), i < l.length → l.getD i d ∈ l := by
  intro l
  induction l with
  | nil => intro i d h; cases h
  | cons x xs ih =>
    intro i d h
    cases i with
    | zero => exact List.mem_cons_self x xs
    | succ j =>
      simp only [List.getD_cons_succ]
      exact List.mem_cons_of_mem x (ih j d (by simpa using h))

theorem getD_concat {α : Type} (l : List α) (a d : α) : (l ++ [a]).getD l.length d = a := by
  rw [List.getD_append_right _ _ _ _ (le_refl _)]
  simp

theorem foldl_add_sum {α : Type} (f : α → Nat) :
    ∀ (l : List α) (n : Nat), l.foldl (fun rc b => rc + f b) n = n + (l.map f).sum := by
  intro l
  induction l with
  | nil => intro n; simp
  | cons x xs ih =>
    intro n
    rw [List.foldl_cons, ih, List.map_cons, List.sum_cons]
    omega

/-! ## `strictRecords` -/

theorem strictRecords_concat (a : ℚ) : ∀ (l : List ℚ) (b : ℚ),
    strictRecords b (l ++ [a]) =
      strictRecords b l ++ (if l.foldl max b < a then [a] else []) := by
  intro l
  induction l with
  | nil =>
    intro b
    by_cases h : b < a <;> simp [strictRecords, h]
  | cons x xs ih =>
    intro b
    rw [List.cons_append]
    by_cases h : b < x
    · have hmax : max b x = x := max_eq_right h.le
      simp only [strictRecords, if_pos h, ih x, List.foldl_cons, hmax, List.cons_append]
    · have hmax : max b x = b := max_eq_left (not_lt.mp h)
      simp only [strictRecords, if_neg h, ih b, List.foldl_cons, hmax]

theorem strictRecords_gt : ∀ (l : List ℚ) (b : ℚ), ∀ x ∈ strictRecords b l, b < x := by
  intro l
  induction l with
  | nil => intro b x hx; cases hx
  | cons a rest ih =>
    intro b x hx
    by_cases h : b < a
    · rw [strictRecords, if_pos h] at hx
      rcases List.mem_cons.mp hx with rfl | hm
      · exact h
      · exact h.trans (ih a x hm)
    · rw [strictRecords, if_neg h] at hx
      exact ih b x hx

theorem strictRecords_chain : ∀ (l : List ℚ) (b : ℚ),
    List.Chain' (· < ·) (strictRecords b l) := by
  intro l
  induction l with
  | nil => intro b; simp [strictRecords]
  | cons a rest ih =>
    intro b
    by_cases h : b < a
    · rw [strictRecords, if_pos h]
      rw [List.chain'_cons']
      refine ⟨?_, ih a⟩
      intro y hy
      exact strictRecords_gt rest a y (List.mem_of_mem_head? hy)
    · rw [strictRecords, if_neg h]
      exact ih b

theorem strictRecords_nil_foldl : ∀ (l : List ℚ) (b : ℚ),
    strictRecords b l = [] → l.foldl max b = b := by
  intro l
  induction l with
  | nil => intro b _; rfl
  | cons a rest ih =>
    intro b h
    by_cases hlt : b < a
    · rw [strictRecords, if_pos hlt] at h; cases h
    · rw [strictRecords, if_neg hlt] at h
      rw [List.foldl_cons, max_eq_left (not_lt.mp hlt)]
      exact ih b h

theorem strictRecords_getLast : ∀ (l : List ℚ) (b : ℚ), strictRecords b l ≠ [] →
    (strictRecords b l).getLast? = some (l.foldl max b) := by
  intro l
  induction l with
  | nil => intro b h; exact absurd rfl h
  | cons a rest ih =>
    intro b h
    by_cases hlt : b < a
    · rw [strictRecords, if_pos hlt] at h ⊢
      rw [List.foldl_cons, max_eq_right hlt.le]
      by_cases hnil : strictRecords a rest = []
      · rw [hnil]
        simp [strictRecords_nil_foldl rest a hnil]
      · rw [List.getLast?_cons, ih a hnil]
        simp [hnil]
    · rw [strictRecords, if_neg hlt] at h ⊢
      rw [List.foldl_cons, max_eq_left (not_lt.mp hlt)]
      exact ih b h

/-! ## Epoch-loop invariant: validation history (claim C10) -/

theorem runEpochs_c10 (env : Env W O B) {dls : List (String × Option (Loader B))}
    {subp : Option (List (Nat × List (Nat × Loader B)))}
    (hnd : (dls.map Prod.fst).Nodup)
    (Hord : ∀ pre lv post, dls = pre ++ ("val", lv) :: post → "train" ∉ post.map Prod.fst) :
    ∀ (n e : Nat) (st st' : EpochSt W O),
      runEpochs env dls subp e n st = .ok st' →
      st.valHist = strictRecords 0 st.valAccs →
      st.bestAcc = st.valAccs.foldl max 0 →
      st'.valHist = strictRecords 0 st'.valAccs ∧ st'.bestAcc = st'.valAccs.foldl max 0 := by
  intro n
  induction n with
  | zero =>
    intro e st st' h h1 h2
    cases h
    exact ⟨h1, h2⟩
  | succ m ih =>
    intro e st st' h h1 h2
    obtain ⟨st2, hep, hrest⟩ := runEpochs_succ_inv h
    obtain ⟨ph, spt, sub2, hph, hsub, rfl⟩ := runEpoch_ok_inv hep
    by_cases hv : "val" ∈ dls.map Prod.fst
    · obtain ⟨a, ha0, haccs, hupd⟩ := runPhases_val_mem env _ _ hnd Hord hv hph
      have hmk : (mkPh0 st).valAccsSeen = [] := rfl
      have hmkB : (mkPh0 st).bestAcc = st.bestAcc := rfl
      have hmkH : (mkPh0 st).valHist = st.valHist := rfl
      rw [hmk] at haccs
      rw [hmkB, hmkH] at hupd
      simp only [List.nil_append] at haccs
      refine ih (e + 1) _ st' hrest ?_ ?_
      · show ph.valHist = strictRecords 0 (st.valAccs ++ ph.valAccsSeen)
        rw [haccs, strictRecords_concat, ← h2, ← h1]
        rcases hupd with ⟨hlt, _, _, hvh⟩ | ⟨hlt, _, _, hvh⟩
        · rw [hvh, if_pos hlt]
        · rw [hvh, if_neg hlt]
          simp
      · show ph.bestAcc = (st.valAccs ++ ph.valAccsSeen).foldl max 0
        rw [haccs, List.foldl_append, ← h2]
        rcases hupd with ⟨hlt, hba, _, _⟩ | ⟨hlt, hba, _, _⟩
        · rw [hba]
          simp [max_eq_right hlt.le]
        · rw [hba]
          simp [max_eq_left (not_lt.mp hlt)]
    · obtain ⟨hba, hbw, hvh, hvs⟩ := runPhases_no_val env dls _ _ hv hph
      refine ih (e + 1) _ st' hrest ?_ ?_
      · show ph.valHist = strictRecords 0 (st.valAccs ++ ph.valAccsSeen)
        rw [hvh, hvs]
        simpa [mkPh0] using h1
      · show ph.bestAcc = (st.valAccs ++ ph.valAccsSeen).foldl max 0
        rw [hba, hvs]
        simpa [mkPh0] using h2

/-- Claim C10 (confirmed): the `val_acc_history` returned by `train_model`
is exactly the strictly record-breaking subsequence of the per-epoch
validation accuracies (so an entry is appended only for an epoch whose
validation accuracy strictly exceeds every previous epoch's, not one entry
per epoch), it is strictly increasing, and when non-empty its last element
is the returned best accuracy. -/
theorem c10_val_acc_history (env : Env W O B) (dls : List (String × Option (Loader B)))
    (subp : Option (List (Nat × List (Nat × Loader B)))) (n : Nat) (w0 : W) (o0 : O)
    (c0 : Nat) (r : TrainResult W) (lt : Loader B)
    (htr : dls.lookup "train" = some (some lt))
    (hnd : (dls.map Prod.fst).Nodup)
    (Hord : ∀ pre lv post, dls = pre ++ ("val", lv) :: post → "train" ∉ post.map Prod.fst)
    (h : train_model env dls subp n w0 o0 c0 = .ok r) :
    r.valHist = strictRecords 0 r.valAccs ∧
    List.Chain' (· < ·) r.valHist ∧
    (r.valHist ≠ [] → r.valHist.getLast? = some r.bestAcc) := by
  obtain ⟨stF, hrun, hm, hvh, hba, hpro, hsch, hva, hew, hpd⟩ := train_model_train_inv htr h
  obtain ⟨H1, H2⟩ := runEpochs_c10 env hnd Hord n 0 _ stF hrun rfl rfl
  refine ⟨by rw [hvh, hva, H1], ?_, ?_⟩
  · rw [hvh, H1]
    exact strictRecords_chain _ _
  · intro hne
    rw [hvh, H1, hba, H2]
    refine strictRecords_getLast _ _ ?_
    rw [hvh, H1] at hne
    exact hne

/-! ## Epoch-loop invariant: best checkpoint (claim C2) -/

theorem runEpochs_c2 (env : Env W O B) {dls : List (String × Option (Loader B))}
    {subp : Option (List (Nat × List (Nat × Loader B)))} (w0 : W)
    (hnd : (dls.map Prod.fst).Nodup)
    (Hord : ∀ pre lv post, dls = pre ++ ("val", lv) :: post → "train" ∉ post.map Prod.fst)
    (hv : "val" ∈ dls.map Prod.fst) :
    ∀ (n e : Nat) (st st' : EpochSt W O),
      runEpochs env dls subp e n st = .ok st' →
      (∀ a ∈ st.valAccs, 0 ≤ a) →
      st.bestAcc = st.valAccs.foldl max 0 →
      st.valAccs.length = st.epochEndW.length →
      ((∃ i, i < st.valAccs.length ∧ st.valAccs.getD i 0 = st.bestAcc ∧
         (∀ j, j < i → st.valAccs.getD j 0 < st.bestAcc) ∧
         st.bestW = st.epochEndW.getD i w0) ∨
       ((∀ a ∈ st.valAccs, ¬ 0 < a) ∧ st.bestW = w0 ∧ st.bestAcc = 0)) →
      ((∀ a ∈ st'.valAccs, 0 ≤ a) ∧
       st'.bestAcc = st'.valAccs.foldl max 0 ∧
       st'.valAccs.length = st'.epochEndW.length ∧
       ((∃ i, i < st'.valAccs.length ∧ st'.valAccs.getD i 0 = st'.bestAcc ∧
          (∀ j, j < i → st'.valAccs.getD j 0 < st'.bestAcc) ∧
          st'.bestW = st'.epochEndW.getD i w0) ∨
        ((∀ a ∈ st'.valAccs, ¬ 0 < a) ∧ st'.bestW = w0 ∧ st'.bestAcc = 0))) := by
  intro n
  induction n with
  | zero =>
    intro e st st' h h1 h2 h3 h4
    cases h
    exact ⟨h1, h2, h3, h4⟩
  | succ m ih =>
    intro e st st' h h1 h2 h3 h4
    obtain ⟨st2, hep, hrest⟩ := runEpochs_succ_inv h
    obtain ⟨ph, spt, sub2, hph, hsub, rfl⟩ := runEpoch_ok_inv hep
    obtain ⟨a, ha0, haccs, hupd⟩ := runPhases_val_mem env _ _ hnd Hord hv hph
    have hmk : (mkPh0 st).valAccsSeen = [] := rfl
    have hmkB : (mkPh0 st).bestAcc = st.bestAcc := rfl
    have hmkBW : (mkPh0 st).bestW = st.bestW := rfl
    rw [hmk] at haccs
    rw [hmkB, hmkBW] at hupd
    simp only [List.nil_append] at haccs
    have hlenA : (st.valAccs ++ ph.valAccsSeen).length = st.valAccs.length + 1 := by
      rw [haccs]
      simp
    refine ih (e + 1) _ st' hrest ?_ ?_ ?_ ?_
    · show ∀ x ∈ st.valAccs ++ ph.valAccsSeen, 0 ≤ x
      rw [haccs]
      intro x hx
      rcases List.mem_append.mp hx with hx | hx
      · exact h1 x hx
      · rw [List.mem_singleton.mp hx]
        exact ha0
    · show ph.bestAcc = (st.valAccs ++ ph.valAccsSeen).foldl max 0
      rw [haccs, List.foldl_append, ← h2]
      rcases hupd with ⟨hlt, hba, _, _⟩ | ⟨hlt, hba, _, _⟩
      · rw [hba]
        simp [max_eq_right hlt.le]
      · rw [hba]
        simp [max_eq_left (not_lt.mp hlt)]
    · show (st.valAccs ++ ph.valAccsSeen).length = (st.epochEndW ++ [ph.w]).length
      rw [hlenA]
      simp [h3]
    · show (∃ i, i < (st.valAccs ++ ph.valAccsSeen).length ∧
          (st.valAccs ++ ph.valAccsSeen).getD i 0 = ph.bestAcc ∧
          (∀ j, j < i → (st.valAccs ++ ph.valAccsSeen).getD j 0 < ph.bestAcc) ∧
          ph.bestW = (st.epochEndW ++ [ph.w]).getD i w0) ∨
        ((∀ x ∈ st.valAccs ++ ph.valAccsSeen, ¬ 0 < x) ∧ ph.bestW = w0 ∧ ph.bestAcc = 0)
      rcases hupd with ⟨hlt, hba, hbw, _⟩ | ⟨hlt, hba, hbw, _⟩
      · -- record-breaking epoch: the new index is the last one
        refine Or.inl ⟨st.valAccs.length, ?_, ?_, ?_, ?_⟩
        · rw [hlenA]
          omega
        · rw [haccs, getD_concat, hba]
        · intro j hj
          rw [haccs, List.getD_append _ _ _ _ hj, hba]
          exact lt_of_le_of_lt (h2 ▸ mem_le_foldl_max 0 (getD_mem _ _ _ hj)) hlt
        · rw [hbw, h3, getD_concat]
      · -- no improvement: the previous best is kept
        rcases h4 with ⟨i, hi, hgi, hbnd, hbwi⟩ | ⟨hall, hw0, hb0⟩
        · refine Or.inl ⟨i, ?_, ?_, ?_, ?_⟩
          · rw [hlenA]
            omega
          · rw [haccs, List.getD_append _ _ _ _ hi, hba, hgi]
          · intro j hj
            rw [haccs, List.getD_append _ _ _ _ (hj.trans hi), hba]
            exact hbnd j hj
          · rw [hbw, hbwi, List.getD_append _ _ _ _ (by omega : i < st.epochEndW.length)]
        · refine Or.inr ⟨?_, hbw.trans hw0, hba.trans hb0⟩
          rw [haccs]
          intro x hx
          rcases List.mem_append.mp hx with hx | hx
          · exact hall x hx
          · rw [List.mem_singleton.mp hx]
            rw [hb0] at hlt
            exact hlt

theorem runEpochs_c2_noval (env : Env W O B) {dls : List (String × Option (Loader B))}
    {subp : Option (List (Nat × List (Nat × Loader B)))} (w0 : W)
    (hv : "val" ∉ dls.map Prod.fst) :
    ∀ (n e : Nat) (st st' : EpochSt W O),
      runEpochs env dls subp e n st = .ok st' →
      st.valAccs = [] → st.bestAcc = 0 → st.bestW = w0 →
      st'.valAccs = [] ∧ st'.bestAcc = 0 ∧ st'.bestW = w0 := by
  intro n
  induction n with
  | zero =>
    intro e st st' h h1 h2 h3
    cases h
    exact ⟨h1, h2, h3⟩
  | succ m ih =>
    intro e st st' h h1 h2 h3
    obtain ⟨st2, hep, hrest⟩ := runEpochs_succ_inv h
    obtain ⟨ph, spt, sub2, hph, hsub, rfl⟩ := runEpoch_ok_inv hep
    obtain ⟨hba, hbw, hvh, hvs⟩ := runPhases_no_val env dls _ _ hv hph
    refine ih (e + 1) _ st' hrest ?_ ?_ ?_
    · show st.valAccs ++ ph.valAccsSeen = []
      rw [hvs, h1]
      rfl
    · show ph.bestAcc = 0
      rw [hba]
      exact h2
    · show ph.bestW = w0
      rw [hbw]
      exact h3

/-- Claim C2 (confirmed): when `train_model` returns, the returned best
accuracy is the maximum of the per-epoch validation accuracies (`0` when
there are none or all are `0`), and the model weights are those at the end
of the first epoch attaining that maximum — the initial weights when no
epoch's validation accuracy exceeded `0`.  The hypotheses say that the
dataloaders dict has a non-`None` `'train'` entry, has no duplicate keys
(true of every Python dict), and does not place the `'train'` phase after
the `'val'` phase. -/
theorem c2_best_checkpoint (env : Env W O B) (dls : List (String × Option (Loader B)))
    (subp : Option (List (Nat × List (Nat × Loader B)))) (n : Nat) (w0 : W) (o0 : O)
    (c0 : Nat) (r : TrainResult W) (lt : Loader B)
    (htr : dls.lookup "train" = some (some lt))
    (hnd : (dls.map Prod.fst).Nodup)
    (Hord : ∀ pre lv post, dls = pre ++ ("val", lv) :: post → "train" ∉ post.map Prod.fst)
    (h : train_model env dls subp n w0 o0 c0 = .ok r) :
    (∀ a ∈ r.valAccs, a ≤ r.bestAcc) ∧
    (r.bestAcc ∈ r.valAccs ∨ r.bestAcc = 0) ∧
    ((∃ i, i < r.valAccs.length ∧ r.valAccs.getD i 0 = r.bestAcc ∧
        (∀ j, j < i → r.valAccs.getD j 0 < r.bestAcc) ∧
        r.model = r.epochEndW.getD i w0) ∨
     ((∀ a ∈ r.valAccs, ¬ 0 < a) ∧ r.model = w0)) := by
  obtain ⟨stF, hrun, hm, hvh, hba, hpro, hsch, hva, hew, hpd⟩ := train_model_train_inv htr h
  by_cases hv : "val" ∈ dls.map Prod.fst
  · obtain ⟨H1, H2, H3, H4⟩ := runEpochs_c2 env w0 hnd Hord hv n 0 _ stF hrun
      (by intro a ha; simp [initSt] at ha) rfl rfl
      (Or.inr ⟨by intro a ha; simp [initSt] at ha, rfl, rfl⟩)
    refine ⟨?_, ?_, ?_⟩
    · intro a ha
      rw [hva] at ha
      rw [hba, H2]
      exact mem_le_foldl_max 0 ha
    · rcases foldl_max_mem_or 0 stF.valAccs with h0 | hmem
      · exact Or.inr (hba.trans (H2.trans h0))
      · refine Or.inl ?_
        rw [hba, H2, hva]
        exact hmem
    · rcases H4 with ⟨i, hi, hgi, hbnd, hbw⟩ | ⟨hall, hw0, hb0⟩
      · refine Or.inl ⟨i, ?_, ?_, ?_, ?_⟩
        · rw [hva]
          exact hi
        · rw [hva, hba]
          exact hgi
        · intro j hj
          rw [hva, hba]
          exact hbnd j hj
        · rw [hm, hew]
          exact hbw
      · refine Or.inr ⟨?_, hm.trans hw0⟩
        rw [hva]
        exact hall
  · obtain ⟨H1, H2, H3⟩ := runEpochs_c2_noval env w0 hv n 0 _ stF hrun rfl rfl rfl
    refine ⟨?_, Or.inr (hba.trans H2), Or.inr ⟨?_, hm.trans H3⟩⟩
    · intro a ha
      rw [hva, H1] at ha
      cases ha
    · intro a ha
      rw [hva, H1] at ha
      cases ha

/-! ## Epoch-loop invariant: scheduler metric (claim C1) -/

theorem lookup_mem_keys {β : Type} {l : List (String × β)} {k : String} {v : β}
    (h : l.lookup k = some v) : k ∈ l.map Prod.fst := by
  induction l with
  | nil => cases h
  | cons kv rest ih =>
    obtain ⟨k1, v1⟩ := kv
    rw [List.lookup_cons] at h
    cases hbeq : (k == k1) with
    | true =>
      have : k = k1 := beq_iff_eq.mp hbeq
      rw [this]
      exact List.mem_cons_self _ _
    | false =>
      rw [hbeq] at h
      exact List.mem_cons_of_mem _ (ih h)

theorem mkEntry_getD2 (ts : ℚ) (pd : List (String × PhaseStats)) :
    (mkEntry ts pd).getD 2 0 = (lookupStats pd "train").loss := rfl

theorem runEpochs_c1 (env : Env W O B) {dls : List (String × Option (Loader B))}
    {subp : Option (List (Nat × List (Nat × Loader B)))}
    (hnd : (dls.map Prod.fst).Nodup) (hmem : "train" ∈ dls.map Prod.fst) :
    ∀ (n e : Nat) (st st' : EpochSt W O),
      runEpochs env dls subp e n st = .ok st' →
      st.schedTrace.length = st.profile.length →
      (∀ i, i < st.profile.length →
        st.schedTrace.getD i 0 = (st.profile.getD i []).getD 2 0) →
      st'.schedTrace.length = st.schedTrace.length + n ∧
      st'.profile.length = st.profile.length + n ∧
      st'.schedTrace.length = st'.profile.length ∧
      (∀ i, i < st'.profile.length →
        st'.schedTrace.getD i 0 = (st'.profile.getD i []).getD 2 0) := by
  intro n
  induction n with
  | zero =>
    intro e st st' h h1 h2
    cases h
    exact ⟨rfl, rfl, h1, h2⟩
  | succ m ih =>
    intro e st st' h h1 h2
    obtain ⟨st2, hep, hrest⟩ := runEpochs_succ_inv h
    obtain ⟨ph, spt, sub2, hph, hsub, rfl⟩ := runEpoch_ok_inv hep
    obtain ⟨s, hsched, hpd⟩ := runPhases_sched env _ _ hnd hmem hph
    have hmk : (mkPh0 st).schedCalls = [] := rfl
    rw [hmk] at hsched
    simp only [List.nil_append] at hsched
    have hstep1 : (st.schedTrace ++ ph.schedCalls).length = st.schedTrace.length + 1 := by
      rw [hsched]
      simp
    have hstep2 : (st.profile ++ [mkEntry (st.clock : ℚ) ph.pd]).length =
        st.profile.length + 1 := by
      simp
    obtain ⟨ih1, ih2, ih3, ih4⟩ := ih (e + 1) _ st' hrest
      (by
        show (st.schedTrace ++ ph.schedCalls).length =
          (st.profile ++ [mkEntry (st.clock : ℚ) ph.pd]).length
        rw [hstep1, hstep2, h1])
      (by
        show ∀ i, i < (st.profile ++ [mkEntry (st.clock : ℚ) ph.pd]).length →
          (st.schedTrace ++ ph.schedCalls).getD i 0 =
            ((st.profile ++ [mkEntry (st.clock : ℚ) ph.pd]).getD i []).getD 2 0
        intro i hi
        rw [hstep2] at hi
        rcases Nat.lt_or_ge i st.profile.length with hlt | hge
        · rw [List.getD_append _ _ _ _ hlt,
            List.getD_append _ _ _ _ (by rw [h1]; exact hlt)]
          exact h2 i hlt
        · have hieq : i = st.profile.length := by omega
          subst hieq
          rw [List.getD_append_right _ _ _ _ (by rw [h1]), hsched, h1]
          simp only [Nat.sub_self, getD_concat]
          simp only [List.getD_cons_zero]
          rw [mkEntry_getD2, lookupStats, hpd]
          rfl)
    refine ⟨?_, ?_, ih3, ih4⟩
    · have hE : (epochResult st ph sub2).schedTrace.length = st.schedTrace.length + 1 := hstep1
      omega
    · have hE : (epochResult st ph sub2).profile.length = st.profile.length + 1 := hstep2
      omega

/-- Claim C1 (corrected): the plateau scheduler is stepped exactly once per
training epoch, but the metric it receives is the TRAIN-phase epoch loss
(line 158 runs under `if phase == 'train'` with that phase's `epoch_loss`),
not the validation-phase loss: the trace of `scheduler.step` metrics has one
entry per epoch, equal to the train-loss slot (index 2) of that epoch's
profile entry. -/
theorem c1_sched_steps_train_loss (env : Env W O B)
    (dls : List (String × Option (Loader B)))
    (subp : Option (List (Nat × List (Nat × Loader B)))) (n : Nat) (w0 : W) (o0 : O)
    (c0 : Nat) (r : TrainResult W) (lt : Loader B)
    (htr : dls.lookup "train" = some (some lt))
    (hnd : (dls.map Prod.fst).Nodup)
    (h : train_model env dls subp n w0 o0 c0 = .ok r) :
    r.schedTrace.length = n ∧ r.profile.length = n ∧
    (∀ i, i < n → r.schedTrace.getD i 0 = (r.profile.getD i []).getD 2 0) := by
  obtain ⟨stF, hrun, hm, hvh, hba, hpro, hsch, hva, hew, hpd⟩ := train_model_train_inv htr h
  have hmem : "train" ∈ dls.map Prod.fst := lookup_mem_keys htr
  obtain ⟨H1, H2, H3, H4⟩ := runEpochs_c1 env hnd hmem n 0 _ stF hrun rfl
    (by intro i hi; simp [initSt] at hi)
  refine ⟨?_, ?_, ?_⟩
  · rw [hsch, H1]
    simp [initSt]
  · rw [hpro, H2]
    simp [initSt]
  · intro i hi
    rw [hsch, hpro]
    refine H4 i ?_
    rw [H2]
    simpa [initSt] using hi

/-! ## Epoch-loop invariant: the profile (claim C6) -/

theorem runEpochs_c6 (env : Env W O B) {dls : List (String × Option (Loader B))}
    {subp : Option (List (Nat × List (Nat × Loader B)))} :
    ∀ (n e : Nat) (st st' : EpochSt W O),
      runEpochs env dls subp e n st = .ok st' →
      st.profile = st.pdTrace.map (fun x => mkEntry x.1 x.2) →
      (∀ x ∈ st.pdTrace, ∀ p : String, p ∉ dls.map Prod.fst → (x.2).lookup p = none) →
      st'.profile.length = st.profile.length + n ∧
      st'.profile = st'.pdTrace.map (fun x => mkEntry x.1 x.2) ∧
      (∀ x ∈ st'.pdTrace, ∀ p : String, p ∉ dls.map Prod.fst → (x.2).lookup p = none) := by
  intro n
  induction n with
  | zero =>
    intro e st st' h h1 h2
    cases h
    exact ⟨rfl, h1, h2⟩
  | succ m ih =>
    intro e st st' h h1 h2
    obtain ⟨st2, hep, hrest⟩ := runEpochs_succ_inv h
    obtain ⟨ph, spt, sub2, hph, hsub, rfl⟩ := runEpoch_ok_inv hep
    obtain ⟨ih1, ih2, ih3⟩ := ih (e + 1) _ st' hrest
      (by
        show st.profile ++ [mkEntry (st.clock : ℚ) ph.pd] =
          (st.pdTrace ++ [((st.clock : ℚ), ph.pd)]).map (fun x => mkEntry x.1 x.2)
        rw [List.map_append, h1]
        rfl)
      (by
        show ∀ x ∈ st.pdTrace ++ [((st.clock : ℚ), ph.pd)], ∀ p : String,
          p ∉ dls.map Prod.fst → (x.2).lookup p = none
        intro x hx p hp
        rcases List.mem_append.mp hx with hx | hx
        · exact h2 x hx p hp
        · rw [List.mem_singleton.mp hx]
          have := runPhases_pd_frame env dls (mkPh0 st) ph p hp hph
          rw [this]
          rfl)
    refine ⟨?_, ih2, ih3⟩
    have hE : (epochResult st ph sub2).profile.length = st.profile.length + 1 := by
      show (st.profile ++ [mkEntry (st.clock : ℚ) ph.pd]).length = st.profile.length + 1
      simp
    omega

/-- Claim C6 (confirmed): per training epoch exactly one profile entry is
appended; each entry is the epoch start timestamp followed by the time,
loss, accuracy and number of samples of the `'train'`, `'val'` and `'test'`
phases in that order (13 values), with every metric of a phase absent from
the dataloaders dict equal to 0 (the `defaultdict` default). -/
theorem c6_profile_entries (env : Env W O B) (dls : List (String × Option (Loader B)))
    (subp : Option (List (Nat × List (Nat × Loader B)))) (n : Nat) (w0 : W) (o0 : O)
    (c0 : Nat) (r : TrainResult W) (lt : Loader B)
    (htr : dls.lookup "train" = some (some lt))
    (h : train_model env dls subp n w0 o0 c0 = .ok r) :
    r.profile.length = n ∧
    r.profile = r.pdTrace.map (fun x => mkEntry x.1 x.2) ∧
    (∀ x ∈ r.pdTrace, ∀ p : String, p ∉ dls.map Prod.fst → lookupStats x.2 p = zeroStats) ∧
    (∀ x ∈ r.pdTrace, mkEntry x.1 x.2 =
      [x.1, (lookupStats x.2 "train").time, (lookupStats x.2 "train").loss,
       (lookupStats x.2 "train").acc, (lookupStats x.2 "train").num_samples,
       (lookupStats x.2 "val").time, (lookupStats x.2 "val").loss,
       (lookupStats x.2 "val").acc, (lookupStats x.2 "val").num_samples,
       (lookupStats x.2 "test").time, (lookupStats x.2 "test").loss,
       (lookupStats x.2 "test").acc, (lookupStats x.2 "test").num_samples]) ∧
    (∀ entry ∈ r.profile, entry.length = 13) := by
  obtain ⟨stF, hrun, hm, hvh, hba, hpro, hsch, hva, hew, hpd⟩ := train_model_train_inv htr h
  obtain ⟨H1, H2, H3⟩ := runEpochs_c6 env n 0 _ stF hrun rfl
    (by intro x hx; simp [initSt] at hx)
  refine ⟨?_, ?_, ?_, ?_, ?_⟩
  · rw [hpro, H1]
    simp [initSt]
  · rw [hpro, hpd, H2]
  · intro x hx p hp
    rw [hpd] at hx
    rw [lookupStats, H3 x hx p hp]
    rfl
  · intro x hx
    rfl
  · intro entry he
    rw [hpro, H2] at he
    obtain ⟨x, hx, rfl⟩ := List.mem_map.mp he
    rfl

/-! ## Claim C3: the default `subprofile_test_epochs = None` -/

/-- Claim C3 (corrected): with `subprofile_test_epochs` left at its default
`None`, `train_model` raises `AttributeError` from `None.keys()`:
immediately (line 100) when `dataloaders['train']` is `None`, and at the end
of the first epoch (line 180) when `dataloaders['train']` is not `None` and
at least one epoch runs (with well-formed dataloaders).  With
`num_epochs = 0` no epoch runs and no `AttributeError` is raised, so the
claim's universal statement is amended by the `1 ≤ num_epochs` condition. -/
theorem c3_default_subprofile_raises (env : Env W O B)
    (dls : List (String × Option (Loader B))) (n : Nat) (w0 : W) (o0 : O) (c0 : Nat) :
    (dls.lookup "train" = some none →
      train_model env dls none n w0 o0 c0 = .error .attributeError) ∧
    (∀ lt : Loader B, dls.lookup "train" = some (some lt) → 1 ≤ n →
      (∀ kv ∈ dls, wfKV kv = true) →
      train_model env dls none n w0 o0 c0 = .error .attributeError) := by
  constructor
  · intro htr
    simp [train_model, htr]
  · intro lt htr hn hwf
    cases n with
    | zero => omega
    | succ m =>
      have hE := runEpoch_subp_none env dls 0 (initSt w0 o0 c0) hwf
      simp [train_model, htr, runEpochs, hE]

/-- Claim C3 counterexample: the call with `num_epochs = 0` and a
non-`None` train loader completes normally although
`subprofile_test_epochs` is `None`. -/
theorem c3_cex_zero_epochs_completes :
    train_model cenv [("train", some ltr)] none 0 () () 0 = .ok trDefault := by
  simp +decide [train_model, runEpochs, initSt, trDefault, List.lookup]

/-- Claim C3 witness: both amended branches, at concrete inputs. -/
theorem c3_witness :
    train_model cenv [("train", none)] none 1 () () 0 = .error .attributeError ∧
    train_model cenv cdls1 none 1 () () 0 = .error .attributeError :=
  ⟨(c3_default_subprofile_raises cenv [("train", none)] 1 () () 0).1
      (by simp [List.lookup]),
   (c3_default_subprofile_raises cenv cdls1 1 () () 0).2 ltr
      (by simp [cdls1, List.lookup]) (by omega) (by decide)⟩

/-! ## Claim C8: only the train phase touches the parameters -/

/-- Claim C8 (confirmed): a non-`'train'` phase of `train_model` leaves the
model parameters and the optimizer/scheduler state unchanged
(`loss.backward`/`optimizer.step` run only under `if phase == 'train'`),
and every `torch.set_grad_enabled` call of that phase receives `False`.
(`infer` is likewise parameter-free: it is a pure function of the weights
whose forward passes all run in eval mode with gradients disabled.) -/
theorem c8_non_train_frame (env : Env W O B) (st st' : PhSt W O) (p : String)
    (l : Loader B) (hp : p ≠ "train")
    (h : runOnePhase env st (p, some l) = .ok st') :
    st'.w = st.w ∧ st'.o = st.o ∧
    st'.gradTrace = st.gradTrace ++ List.replicate l.batches.length false := by
  obtain ⟨l2, hl2, hz, hb, hres⟩ := runOnePhase_ok_inv h
  injection hl2 with hl2
  subst hl2
  subst hres
  refine ⟨phaseResult_w_notTrain env st l hp, phaseResult_o_notTrain env st l hp, ?_⟩
  rw [phaseResult_gradTrace]
  simp [hp]

/-- Claim C8 witness: the concrete `'val'` phase. -/
theorem c8_witness :
    cPh1.w = cPh0.w ∧ cPh1.o = cPh0.o ∧
    cPh1.gradTrace = cPh0.gradTrace ++ List.replicate lvl.batches.length false :=
  c8_non_train_frame cenv cPh0 cPh1 "val" lvl (by decide)
    (by simp +decide [cPh1, runOnePhase, phaseResult, cPh0, runBatch, pdSet,
      argmaxIdx, countCorrect, Except.toOption])

/-! ## Claim C7: `infer` computes dataset accuracy -/

/-- Claim C7 (confirmed): on a loader with at least one batch over a
non-empty dataset, `infer` returns the number of samples whose predicted
class (the argmax of the model output row) equals their label, summed over
all batches, divided by `len(dataloader.dataset)`. -/
theorem c7_infer_accuracy (env : Env W O B) (w : W) (loader : Loader B)
    (hb : loader.batches ≠ []) (hd : loader.datasetSize ≠ 0) :
    infer env w loader =
      .ok ((((loader.batches.map fun b =>
          countCorrect (predsOf env false w b) (env.labels b)).sum : Nat) : ℚ) /
        (loader.datasetSize : ℚ)) := by
  have he : ¬ loader.batches.isEmpty = true := by
    rw [List.isEmpty_iff]
    exact hb
  rw [infer, if_neg he]
  have hf : inferFold env w loader.batches =
      (loader.batches.map fun b =>
        countCorrect (predsOf env false w b) (env.labels b)).sum := by
    rw [inferFold, foldl_add_sum]
    simp
  rw [hf]

/-- Claim C7 witness: a concrete two-batch loader. -/
theorem c7_witness :
    infer cenv () linf =
      .ok ((((linf.batches.map fun b =>
          countCorrect (predsOf cenv false () b) (cenv.labels b)).sum : Nat) : ℚ) /
        (linf.datasetSize : ℚ)) :=
  c7_infer_accuracy cenv () linf (by decide) (by decide)

/-! ## Claim C4: the freezing policy -/

theorem filter_freeze (l : List PParam) :
    (l.map fun p => { p with requiresGrad := false }).filter (fun p => p.requiresGrad) = [] := by
  induction l with
  | nil => rfl
  | cons x xs ih => simp [ih]

/-- Claim C4 (confirmed): with `last_layer_only` true the constructor
freezes every backbone parameter before attaching the new head (whose
parameters stay trainable), and `params_to_update` is exactly the
still-trainable parameters, namely those of the two new linear layers; with
`last_layer_only` false nothing is frozen and `params_to_update` is all
model parameters. -/
theorem c4_freezing_policy (b0 f0 : List PParam) :
    (∀ p ∈ (construct true b0 f0).1.backbone, p.requiresGrad = false) ∧
    (∀ p ∈ (construct true b0 f0).1.fc ++ (construct true b0 f0).1.extra,
      p.requiresGrad = true) ∧
    (construct true b0 f0).2 =
      (allParams (construct true b0 f0).1).filter (fun p => p.requiresGrad) ∧
    (construct true b0 f0).2 = newFcParams ++ newOutParams ∧
    (construct false b0 f0).1.backbone = b0 ∧
    (construct false b0 f0).2 = allParams (construct false b0 f0).1 := by
  refine ⟨?_, ?_, ?_, ?_, ?_, ?_⟩
  · intro p hp
    simp only [construct, set_parameter_requires_grad, if_pos, freezeAll,
      init_last_layer] at hp
    obtain ⟨q, hq, rfl⟩ := List.mem_map.mp hp
    rfl
  · intro p hp
    simp only [construct, set_parameter_requires_grad, if_pos, freezeAll,
      init_last_layer, newFcParams, newOutParams] at hp
    simp only [List.mem_append, List.mem_cons, List.not_mem_nil, or_false] at hp
    rcases hp with (rfl | rfl) | (rfl | rfl) <;> rfl
  · rfl
  · show set_params_to_update true (init_last_layer (freezeAll ⟨b0, f0, []⟩)) =
      newFcParams ++ newOutParams
    simp only [set_params_to_update, if_pos, allParams, init_last_layer, freezeAll]
    rw [List.filter_append, List.filter_append, filter_freeze]
    rfl
  · rfl
  · rfl

/-- Claim C4 witness: a concrete backbone and `fc` layer. -/
theorem c4_witness :
    (construct true cB0 cF0).2 = newFcParams ++ newOutParams ∧
    (construct false cB0 cF0).2 = allParams (construct false cB0 cF0).1 :=
  ⟨(c4_freezing_policy cB0 cF0).2.2.2.1, (c4_freezing_policy cB0 cF0).2.2.2.2.2⟩

/-! ## Claim C5: save/load round trip -/

/-- Claim C5 (confirmed): loading from a path right after saving to it
restores exactly the saved state dict (persistence round trip is the
identity on the model's parameter state, on this or an
identically-constructed model, serialization being modelled as faithful). -/
theorem c5_save_load_roundtrip (fs : List (String × S)) (path : String) (sd : S) :
    load (save fs path sd) path = some sd := by
  simp [save, load, List.lookup]

/-! ## Claim C9: model lookup from a name string -/

/-- Claim C9 (confirmed): `get_model_from_str` returns the torchvision
constructor for exactly `'resnet18'`, `'resnet50'`, `'resnet101'`,
`'resnet152'`, and raises `Exception('Model ... not found')` on every other
string. -/
theorem c9_get_model_from_str :
    get_model_from_str "resnet18" = .ok .resnet18 ∧
    get_model_from_str "resnet50" = .ok .resnet50 ∧
    get_model_from_str "resnet101" = .ok .resnet101 ∧
    get_model_from_str "resnet152" = .ok .resnet152 ∧
    (∀ s : String,
      s ∉ (["resnet18", "resnet50", "resnet101", "resnet152"] : List String) →
      get_model_from_str s = .error (.exception ("Model " ++ s ++ " not found"))) := by
  refine ⟨rfl, rfl, rfl, rfl, ?_⟩
  intro s hs
  simp only [List.mem_cons, List.not_mem_nil, or_false, not_or] at hs
  obtain ⟨h1, h2, h3, h4⟩ := hs
  simp [get_model_from_str, h1, h2, h3, h4]

/-- Claim C9 witness: `'resnet34'` is rejected. -/
theorem c9_witness :
    get_model_from_str "resnet34" = .error (.exception ("Model " ++ "resnet34" ++ " not found")) :=
  c9_get_model_from_str.2.2.2.2 "resnet34" (by decide)

/-! ## The concrete one-epoch run -/

theorem cRun1_eq : train_model cenv cdls1 (some []) 1 () () 0 = .ok cR1 := by
  simp +decide [cR1, cRun1, train_model, runEpochs, runEpoch, runPhases, runOnePhase,
    phaseResult, runBatch, mkPh0, epochResult, mkEntry, statsRow, lookupStats, pdSet,
    zeroStats, argmaxIdx, countCorrect, predsOf, trDefault, List.lookup, initSt,
    Except.toOption]

theorem cdls1_ord : ∀ (pre : List (String × Option (Loader ℚ))) (lv : Option (Loader ℚ))
    (post : List (String × Option (Loader ℚ))),
    cdls1 = pre ++ ("val", lv) :: post → "train" ∉ post.map Prod.fst := by
  intro pre lv post hsplit
  rcases pre with _ | ⟨x, pre⟩
  · simp +decide [cdls1] at hsplit
  · rcases pre with _ | ⟨y, pre⟩
    · simp [cdls1] at hsplit
      rw [hsplit.2.2]
      simp
    · simp [cdls1] at hsplit

/-- Claim C1 counterexample: in the concrete one-epoch run the single
`scheduler.step` call received the train-phase epoch loss `2`, while the
validation-phase epoch loss (slot 6 of the profile entry) is `3`, so the
scheduler was not stepped with the validation loss. -/
theorem c1_cex_metric_is_train_loss :
    cR1.schedTrace = [2] ∧ (cR1.profile.getD 0 []).getD 6 0 = 3 ∧
    cR1.schedTrace ≠ [(cR1.profile.getD 0 []).getD 6 0] := by
  refine ⟨?_, ?_, ?_⟩ <;>
    simp +decide [cR1, cRun1, train_model, runEpochs, runEpoch, runPhases, runOnePhase,
      phaseResult, runBatch, mkPh0, epochResult, mkEntry, statsRow, lookupStats, pdSet,
      zeroStats, argmaxIdx, countCorrect, predsOf, trDefault, List.lookup, initSt,
      Except.toOption, cdls1, ltr, lvl, cenv]

/-- Claim C1 witness: the amended statement at the concrete run. -/
theorem c1_witness :
    cR1.schedTrace.length = 1 ∧ cR1.profile.length = 1 ∧
    cR1.schedTrace.getD 0 0 = (cR1.profile.getD 0 []).getD 2 0 := by
  obtain ⟨h1, h2, h3⟩ := c1_sched_steps_train_loss cenv cdls1 (some []) 1 () () 0 cR1 ltr
    (by decide) (by decide) cRun1_eq
  exact ⟨h1, h2, h3 0 (by omega)⟩

/-- Claim C2 witness: the concrete run's best accuracy is an observed
validation accuracy (or zero). -/
theorem c2_witness : cR1.bestAcc ∈ cR1.valAccs ∨ cR1.bestAcc = 0 :=
  (c2_best_checkpoint cenv cdls1 (some []) 1 () () 0 cR1 ltr
    (by decide) (by decide) cdls1_ord cRun1_eq).2.1

/-- Claim C10 witness: the concrete run's history is the record-breaking
subsequence and is strictly increasing. -/
theorem c10_witness :
    cR1.valHist = strictRecords 0 cR1.valAccs ∧ List.Chain' (· < ·) cR1.valHist := by
  obtain ⟨h1, h2, h3⟩ := c10_val_acc_history cenv cdls1 (some []) 1 () () 0 cR1 ltr
    (by decide) (by decide) cdls1_ord cRun1_eq
  exact ⟨h1, h2⟩

/-- Claim C6 witness: the concrete run has one 13-slot profile entry. -/
theorem c6_witness :
    cR1.profile.length = 1 ∧
    cR1.profile = cR1.pdTrace.map (fun x => mkEntry x.1 x.2) := by
  obtain ⟨h1, h2, h3, h4, h5⟩ := c6_profile_entries cenv cdls1 (some []) 1 () () 0 cR1 ltr
    (by decide) cRun1_eq
  exact ⟨h1, h2⟩

end Ekya
